import Mathlib

/-!
Shallow embedding of the bounded conversational-context manager of
src/agents/base_agent.py (class BaseAgent).  The message dicts become the
structure Msg, the closed set of role strings used by the repository
becomes the inductive Role, Python integer arithmetic is Nat/Int
(remaining_tokens can go negative and is therefore Int), Python string
length is String.length (both count Unicode code points), and the remote
chat completion call is an explicit oracle parameter of type
List Msg → Except String String.
-/

namespace BaseAgent

/-- Roles used by the program: every message built anywhere in the
repository carries exactly one of the strings system, user, assistant. -/
inductive Role where
  | system
  | user
  | assistant
deriving DecidableEq, Repr

/-- One entry of conversation_history: a dict with keys role and content. -/
structure Msg where
  role : Role
  content : String
deriving DecidableEq, Repr

/-- One entry of memory_bank, created by create_memory.  The timestamp
field is wall-clock metadata never read by any of the modeled operations,
so it is omitted from the embedding. -/
structure Memory where
  phase : String
  content : String
deriving DecidableEq, Repr

/-- Estimated token cost of one message: len(content) // 2. -/
def msgCost (m : Msg) : Nat := m.content.length / 2

/-- Estimated token cost of a message list: sum(len(content) // 2). -/
def listCost (l : List Msg) : Nat := (l.map msgCost).sum

/-- Decidable substring test on character lists, modeling the Python
expression pat in s. -/
def containsSub (pat : List Char) : List Char → Bool
  | [] => pat.isEmpty
  | c :: rest => pat.isPrefixOf (c :: rest) || containsSub pat rest

/-- Python substring membership pat in s, on strings. -/
def strContains (s pat : String) : Bool := containsSub pat.data s.data

/-- The kept_messages loop of manage_history_length (lines 74-84): walk
the non-system messages most recent first, keep each message that still
fits, inserting it at the front of the kept list (which restores
chronological order), and break at the first message that does not fit.
current_tokens and remaining_tokens are Python ints and remaining_tokens
can be negative, hence Int. -/
def keepLoop : List Msg → Int → Int → List Msg
  | [], _, _ => []
  | m :: rest, current, remaining =>
      let mt : Int := (msgCost m : Int)
      if current + mt ≤ remaining then keepLoop rest (current + mt) remaining ++ [m]
      else []

/-- manage_history_length (src/agents/base_agent.py lines 38-90).  The
float comparison system_tokens > max_tokens * 0.7 is modeled as the exact
rational comparison 10 * system_tokens > 7 * max_tokens; the two can
differ only within one unit of float rounding of the product, and no
theorem below depends on which branch is taken when they could differ. -/
def manage_history_length (max_tokens : Nat) (hist : List Msg) : List Msg :=
  let estimated_tokens := listCost hist
  if estimated_tokens > max_tokens then
    let system_messages := hist.filter (fun m => m.role == Role.system)
    let non_system_messages := hist.filter (fun m => !(m.role == Role.system))
    let system_tokens := listCost system_messages
    let remaining_tokens : Int := (max_tokens : Int) - (system_tokens : Int)
    let p :=
      if 10 * system_tokens > 7 * max_tokens then
        if system_messages.length > 3 then
          let sm := system_messages.take 1 ++
            system_messages.drop (system_messages.length - 2)
          let st := listCost sm
          (sm, (max_tokens : Int) - (st : Int))
        else (system_messages, remaining_tokens)
      else (system_messages, remaining_tokens)
    let kept_messages := keepLoop non_system_messages.reverse 0 p.2
    p.1 ++ kept_messages
  else hist

/-- The synthetic assistant filler message. -/
def fillerAssistant : Msg := ⟨Role.assistant, "我理解您的问题，请继续。"⟩

/-- The synthetic user filler message. -/
def fillerUser : Msg := ⟨Role.user, "请继续说明。"⟩

/-- Loop of ensure_alternating_roles (lines 107-119): prev is the message
last appended to result just before the comparison. -/
def earLoop (prev : Msg) : List Msg → List Msg
  | [] => []
  | cur :: rest =>
      if cur.role = prev.role ∧ cur.role ≠ Role.system then
        (if cur.role = Role.user then fillerAssistant else fillerUser)
          :: cur :: earLoop cur rest
      else cur :: earLoop cur rest

/-- ensure_alternating_roles (lines 92-121).  For input of length at most
one the source returns it unchanged, which the cons pattern also does. -/
def ensure_alternating_roles : List Msg → List Msg
  | [] => []
  | m :: rest => m :: earLoop m rest

/-- The loop of get_response lines 150-157 building messages_to_send:
non-system messages are appended in order, the first system message is
inserted at position 0 of the list built so far (hence ends up in front
of everything), and every later system message is ignored. -/
def sendLoop : List Msg → List Msg → Bool → List Msg × Bool
  | [], acc, found => (acc, found)
  | m :: rest, acc, found =>
      if m.role = Role.system then
        if found then sendLoop rest acc found
        else sendLoop rest (m :: acc) true
      else sendLoop rest (acc ++ [m]) found

/-- Lines 145-161 of get_response: keep only the first system message,
moved to the front; if none was found and system_prompt is non-empty
(Python truthiness), insert the primer. -/
def buildMessagesToSend (system_prompt : String) (hist : List Msg) : List Msg :=
  let r := sendLoop hist [] false
  if r.2 = false ∧ system_prompt ≠ "" then ⟨Role.system, system_prompt⟩ :: r.1
  else r.1

/-- Lines 166-185 of get_response: if the estimated cost of the message
sequence still exceeds 60000, keep the system messages plus only the 10
most recent non-system messages. -/
def aggressiveTrim (ms : List Msg) : List Msg :=
  if listCost ms > 60000 then
    let system_msgs := ms.filter (fun m => m.role == Role.system)
    let non_system_msgs := ms.filter (fun m => !(m.role == Role.system))
    let kept_msgs :=
      if non_system_msgs.length > 10 then
        non_system_msgs.drop (non_system_msgs.length - 10)
      else non_system_msgs
    system_msgs ++ kept_msgs
  else ms

/-- Lines 134-143 of get_response: trim the stored history to 35000,
insert an assistant filler if the last stored message is a user message,
then append the new user message.  This is conversation_history at the
moment of the first remote call. -/
def historyBeforeCall (hist : List Msg) (message : String) : List Msg :=
  let h1 := manage_history_length 35000 hist
  let h2 :=
    match h1.getLast? with
    | some m => if m.role = Role.user then h1 ++ [fillerAssistant] else h1
    | none => h1
  h2 ++ [⟨Role.user, message⟩]

/-- The transmission list get_response hands to the remote completion
call on its first attempt (lines 145-185). -/
def payloadOf (system_prompt : String) (hist : List Msg) (message : String) :
    List Msg :=
  aggressiveTrim (ensure_alternating_roles
    (buildMessagesToSend system_prompt (historyBeforeCall hist message)))

/-- Lines 216-217: Python slicing content[:4000] plus the literal
truncation marker, applied only above the 4000-character ceiling. -/
def truncIfLong (m : Msg) : Msg :=
  if m.content.length > 4000 then
    ⟨m.role, String.mk (m.content.data.take 4000) ++ "...(内容已截断)"⟩
  else m

/-- Line 206: classification of a remote failure as context-too-large. -/
def isContextError (e : String) : Bool :=
  strContains e "maximum context length" || strContains e "context length"

/-- Observable outcome of one get_response call: the returned string, the
final conversation_history, and the payload of every remote call made. -/
structure GetResponseOut where
  reply : String
  history : List Msg
  calls : List (List Msg)
deriving DecidableEq, Repr

/-- get_response (lines 123-240) with the remote completion call
abstracted as oracle.  In the source the truncation of the most recent
user message mutates the message dict in place; that dict is also the
last element of conversation_history (lemma last_user_of_payload below),
so the stored history sees the truncated text too, which the embedding
renders by rebuilding the history with its last element truncated. -/
def get_response (system_prompt : String) (hist : List Msg) (message : String)
    (oracle : List Msg → Except String String) : GetResponseOut :=
  let h3 := historyBeforeCall hist message
  let mts := payloadOf system_prompt hist message
  match oracle mts with
  | Except.ok reply => ⟨reply, h3 ++ [⟨Role.assistant, reply⟩], [mts]⟩
  | Except.error e =>
      let error_message := "API调用出错: " ++ e
      if isContextError e then
        match (mts.filter (fun m => m.role == Role.user)).getLast? with
        | some last_user_msg =>
            let lu := truncIfLong last_user_msg
            let retry_messages :=
              mts.filter (fun m => m.role == Role.system) ++ [lu]
            let histTrunc := h3.dropLast ++ [lu]
            match oracle retry_messages with
            | Except.ok reply =>
                ⟨reply,
                  manage_history_length 20000 (histTrunc ++ [⟨Role.assistant, reply⟩]),
                  [mts, retry_messages]⟩
            | Except.error retry_error =>
                ⟨"API调用重试失败: " ++ retry_error, histTrunc, [mts, retry_messages]⟩
        | none => ⟨error_message, h3, [mts]⟩
      else ⟨error_message, h3, [mts]⟩

/-- get_memories (lines 337-349).  Python tests if phase, so the empty
string behaves like None and returns the whole bank. -/
def get_memories (bank : List Memory) (phase : String) : List Memory :=
  if phase ≠ "" then bank.filter (fun m => m.phase == phase) else bank

/-- Formatted block of one memory entry (line 380). -/
def memBlock (m : Memory) : String :=
  "--- " ++ m.phase ++ " 阶段总结 ---\n" ++ m.content ++ "\n\n"

/-- Leading text of the injected memory message (line 371). -/
def memoryHeader : String := "以下是之前阶段的关键总结，请参考这些信息：\n\n"

/-- Placeholder appended when no memory fit under the ceiling (line 393). -/
def memoryUnavailable : String :=
  "由于上下文长度限制，无法注入详细记忆。请根据当前对话进行回应。\n\n"

/-- The folding loop of inject_memories_to_context (lines 378-389): the
input list is the bank selection already reversed (newest first); a block
that does not fit is skipped and the scan continues with older entries; a
block that fits is prepended to the accumulated content. -/
def foldLoop : List Memory → String → Nat → String × Nat
  | [], content, current => (content, current)
  | m :: rest, content, current =>
      let memory_text := memBlock m
      let estimated := memory_text.length / 2
      if current + estimated > 10000 then foldLoop rest content current
      else foldLoop rest (memory_text ++ content) (current + estimated)

/-- Lines 371-389: fold the selected memories, newest first, under the
10000 ceiling. -/
def foldMemories (ms : List Memory) : String × Nat :=
  foldLoop ms.reverse memoryHeader 0

/-- Lines 371-393: the full memory_content string, including the
placeholder when nothing fit. -/
def memoryContentOf (ms : List Memory) : String :=
  let r := foldMemories ms
  if r.2 = 0 then r.1 ++ memoryUnavailable else r.1

/-- add_message_to_history (lines 242-262). -/
def add_message_to_history (hist : List Msg) (role : Role) (content : String) :
    List Msg :=
  let h1 := manage_history_length 40000 hist
  let h2 :=
    match h1.getLast? with
    | some m =>
        if m.role = role ∧ role ≠ Role.system then
          if role = Role.user then h1 ++ [fillerAssistant]
          else if role = Role.assistant then h1 ++ [fillerUser]
          else h1
        else h1
    | none => h1
  h2 ++ [⟨role, content⟩]

/-- Selection step of inject_memories_to_context (lines 358-365): Python
if phases is false for None and for the empty list, and both select the
entire bank; otherwise the per-phase results of get_memories are
concatenated in phase order. -/
def memoriesToInject (bank : List Memory) (phases : Option (List String)) :
    List Memory :=
  match phases with
  | some ps =>
      if ps ≠ [] then ps.foldl (fun acc p => acc ++ get_memories bank p) []
      else bank
  | none => bank

/-- inject_memories_to_context (lines 351-404): select, return unchanged
on an empty selection, otherwise fold, drop every system message whose
content contains the marker 阶段总结, append the new memory message, and
re-trim. -/
def inject_memories_to_context (bank : List Memory) (phases : Option (List String))
    (hist : List Msg) : List Msg :=
  let mti := memoriesToInject bank phases
  if mti = [] then hist
  else
    let memory_content := memoryContentOf mti
    let h1 := hist.filter (fun m =>
      !(m.role == Role.system && strContains m.content "阶段总结"))
    let h2 := add_message_to_history h1 Role.system memory_content
    manage_history_length 40000 h2

/-- The no-adjacent-same-role relation: the later message b may not carry
the same non-system role as the message a just before it. -/
def RoleOk (a b : Msg) : Prop := ¬(b.role = a.role ∧ b.role ≠ Role.system)

/-- Characterization of which memories the fold loop keeps: scanning the
given (already newest-first) list, an entry is kept exactly when its block
still fits the 10000 ceiling on top of what was already kept; entries that
do not fit are skipped and the scan continues.  Used in theorem statements
to compare against foldLoop. -/
def foldSelect : List Memory → Nat → List Memory
  | [], _ => []
  | m :: rest, current =>
      let estimated := (memBlock m).length / 2
      if current + estimated > 10000 then foldSelect rest current
      else m :: foldSelect rest (current + estimated)

/-! Basic lemmas about the cost estimator. -/

theorem listCost_nil : listCost [] = 0 := rfl

theorem listCost_cons (m : Msg) (l : List Msg) :
    listCost (m :: l) = msgCost m + listCost l := by
  simp [listCost]

theorem listCost_append (l1 l2 : List Msg) :
    listCost (l1 ++ l2) = listCost l1 + listCost l2 := by
  simp [listCost]

theorem listCost_sublist {l1 l2 : List Msg} (h : l1.Sublist l2) :
    listCost l1 ≤ listCost l2 := by
  induction h with
  | slnil => exact Nat.le_refl _
  | cons a _ ih => rw [listCost_cons]; omega
  | cons₂ a _ ih => rw [listCost_cons, listCost_cons]; omega

/-! Lemmas about the kept_messages loop of manage_history_length. -/

theorem keepLoop_cost (l : List Msg) :
    ∀ (current remaining : Int), current ≤ remaining →
      current + (listCost (keepLoop l current remaining) : Int) ≤ remaining := by
  induction l with
  | nil => intro c r h; simpa [keepLoop, listCost] using h
  | cons m rest ih =>
      intro c r h
      simp only [keepLoop]
      split
      · rename_i hc
        have hrec := ih (c + (msgCost m : Int)) r hc
        rw [listCost_append, listCost_cons, listCost_nil]
        push_cast at hrec ⊢
        omega
      · simpa [listCost] using h

theorem keepLoop_nil (l : List Msg) (current remaining : Int)
    (h : remaining < current) : keepLoop l current remaining = [] := by
  cases l with
  | nil => rfl
  | cons m rest =>
      simp only [keepLoop]
      rw [if_neg]
      intro hc
      have hnn : (0 : Int) ≤ (msgCost m : Int) := Int.natCast_nonneg _
      omega

theorem keepLoop_mem (l : List Msg) :
    ∀ (current remaining : Int) (m : Msg), m ∈ keepLoop l current remaining → m ∈ l := by
  induction l with
  | nil => intro _ _ m hm; simp [keepLoop] at hm
  | cons x rest ih =>
      intro c r m hm
      simp only [keepLoop] at hm
      split at hm
      · rw [List.mem_append] at hm
        rcases hm with hm | hm
        · exact List.mem_cons_of_mem _ (ih _ _ _ hm)
        · simp at hm; simp [hm]
      · simp at hm

/-! Shape of manage_history_length in the over-budget case. -/

theorem manage_shape (C : Nat) (hist : List Msg) (h : listCost hist > C) :
    ∃ sm : List Msg,
      sm.Sublist (hist.filter (fun m => m.role == Role.system)) ∧
      ((hist.filter (fun m => m.role == Role.system)).length ≤ 3 →
        sm = hist.filter (fun m => m.role == Role.system)) ∧
      manage_history_length C hist =
        sm ++ keepLoop (hist.filter (fun m => !(m.role == Role.system))).reverse 0
          ((C : Int) - (listCost sm : Int)) := by
  simp only [manage_history_length]
  rw [if_pos h]
  set sys := hist.filter (fun m => m.role == Role.system) with hsys
  split
  · split
    · rename_i hlen
      refine ⟨sys.take 1 ++ sys.drop (sys.length - 2), ?_, ?_, rfl⟩
      · have h1 : sys.drop (sys.length - 2) <:+ sys.drop 1 :=
          List.drop_suffix_drop_left _ (by omega)
        have h2 : (sys.take 1 ++ sys.drop (sys.length - 2)).Sublist
            (sys.take 1 ++ sys.drop 1) :=
          List.Sublist.append (List.Sublist.refl _) h1.sublist
        have h3 : sys.take 1 ++ sys.drop 1 = sys := List.take_append_drop 1 sys
        exact h2.trans (by rw [h3])
      · intro hle; omega
    · exact ⟨sys, List.Sublist.refl _, fun _ => rfl, rfl⟩
  · exact ⟨sys, List.Sublist.refl _, fun _ => rfl, rfl⟩

theorem manage_eq_of_le (C : Nat) (hist : List Msg) (h : listCost hist ≤ C) :
    manage_history_length C hist = hist := by
  simp only [manage_history_length]
  rw [if_neg (by omega)]

theorem manage_cost_le (C : Nat) (hist : List Msg)
    (hsys : listCost (hist.filter (fun m => m.role == Role.system)) ≤ C) :
    listCost (manage_history_length C hist) ≤ C := by
  by_cases h : listCost hist > C
  · obtain ⟨sm, hsub, _, heq⟩ := manage_shape C hist h
    have hsm : listCost sm ≤ C := le_trans (listCost_sublist hsub) hsys
    rw [heq, listCost_append]
    have hk := keepLoop_cost (hist.filter (fun m => !(m.role == Role.system))).reverse
      0 ((C : Int) - (listCost sm : Int)) (by omega)
    omega
  · rw [manage_eq_of_le C hist (by omega)]; omega

theorem manage_mem (C : Nat) (hist : List Msg) :
    ∀ m ∈ manage_history_length C hist, m ∈ hist := by
  intro m hm
  by_cases h : listCost hist > C
  · obtain ⟨sm, hsub, _, heq⟩ := manage_shape C hist h
    rw [heq, List.mem_append] at hm
    rcases hm with hm | hm
    · exact (List.mem_filter.mp (hsub.subset hm)).1
    · have h1 := keepLoop_mem _ _ _ m hm
      rw [List.mem_reverse] at h1
      exact (List.mem_filter.mp h1).1
  · rwa [manage_eq_of_le C hist (by omega)] at hm

theorem manage_oversys (C : Nat) (hist : List Msg)
    (hover : C < listCost (hist.filter (fun m => m.role == Role.system)))
    (hlen : (hist.filter (fun m => m.role == Role.system)).length ≤ 3) :
    manage_history_length C hist = hist.filter (fun m => m.role == Role.system) := by
  have h : listCost hist > C :=
    lt_of_lt_of_le hover (listCost_sublist (List.filter_sublist _))
  obtain ⟨sm, _, hsm, heq⟩ := manage_shape C hist h
  rw [heq, hsm hlen, keepLoop_nil _ _ _ (by omega), List.append_nil]

/-! Correctness of the substring test. -/

theorem containsSub_of_parts (pat : List Char) :
    ∀ (a b : List Char), containsSub pat (a ++ pat ++ b) = true := by
  intro a
  induction a with
  | nil =>
      intro b
      cases pat with
      | nil => cases b <;> simp [containsSub]
      | cons c cs =>
          simp only [List.nil_append, List.cons_append, containsSub]
          rw [Bool.or_eq_true]
          left
          rw [List.isPrefixOf_iff_prefix]
          show c :: cs <+: (c :: cs) ++ b
          exact List.prefix_append _ _
  | cons c a ih =>
      intro b
      simp only [List.cons_append, containsSub]
      rw [Bool.or_eq_true]
      exact Or.inr (ih b)

theorem strContains_of_parts (u v : String) (pat : String) :
    strContains (u ++ pat ++ v) pat = true := by
  simp only [strContains, String.data_append]
  exact containsSub_of_parts _ _ _

/-! Characterization of the messages_to_send loop. -/

theorem sendLoop_found (l : List Msg) :
    ∀ acc, sendLoop l acc true =
      (acc ++ l.filter (fun m => !(m.role == Role.system)), true) := by
  induction l with
  | nil => intro acc; simp [sendLoop]
  | cons m rest ih =>
      intro acc
      simp only [sendLoop]
      by_cases hm : m.role = Role.system
      · rw [if_pos hm, ih, List.filter_cons]
        simp [hm]
      · rw [if_neg hm, ih, List.filter_cons]
        simp [hm]

theorem sendLoop_not_found (l : List Msg) :
    ∀ acc, sendLoop l acc false =
      match l.find? (fun m => m.role == Role.system) with
      | some s => (s :: (acc ++ l.filter (fun m => !(m.role == Role.system))), true)
      | none => (acc ++ l, false) := by
  induction l with
  | nil => intro acc; simp [sendLoop, List.find?]
  | cons m rest ih =>
      intro acc
      simp only [sendLoop]
      by_cases hm : m.role = Role.system
      · rw [if_pos hm, sendLoop_found, List.find?_cons_of_pos _ (by simp [hm]),
          List.filter_cons]
        simp [hm]
      · rw [if_neg hm, ih, List.find?_cons_of_neg _ (by simp [hm]), List.filter_cons]
        cases hf : rest.find? (fun m => m.role == Role.system) <;> simp [hm]

theorem buildMessagesToSend_eq (p : String) (hist : List Msg) :
    buildMessagesToSend p hist =
      match hist.find? (fun m => m.role == Role.system) with
      | some s => s :: hist.filter (fun m => !(m.role == Role.system))
      | none => if p ≠ "" then ⟨Role.system, p⟩ :: hist else hist := by
  simp only [buildMessagesToSend]
  rw [sendLoop_not_found]
  cases hf : hist.find? (fun m => m.role == Role.system) with
  | some s => simp
  | none =>
      simp only [List.nil_append]
      by_cases hp : p = "" <;> simp [hp]

/-! Lemmas about ensure_alternating_roles. -/

theorem earLoop_mem (l : List Msg) :
    ∀ (prev : Msg) (m : Msg), m ∈ earLoop prev l →
      m ∈ l ∨ m = fillerAssistant ∨ m = fillerUser := by
  induction l with
  | nil => intro prev m hm; simp [earLoop] at hm
  | cons cur rest ih =>
      intro prev m hm
      simp only [earLoop] at hm
      split at hm
      · rcases List.mem_cons.mp hm with hm | hm
        · subst hm
          split
          · right; left; rfl
          · right; right; rfl
        · rcases List.mem_cons.mp hm with hm | hm
          · left; simp [hm]
          · rcases ih cur m hm with h | h
            · left; exact List.mem_cons_of_mem _ h
            · right; exact h
      · rcases List.mem_cons.mp hm with hm | hm
        · left; simp [hm]
        · rcases ih cur m hm with h | h
          · left; exact List.mem_cons_of_mem _ h
          · right; exact h

theorem earLoop_sublist (l : List Msg) :
    ∀ prev : Msg, l.Sublist (earLoop prev l) := by
  induction l with
  | nil => intro _; simp [earLoop]
  | cons cur rest ih =>
      intro prev
      simp only [earLoop]
      split
      · exact List.Sublist.cons _ (List.Sublist.cons₂ _ (ih cur))
      · exact List.Sublist.cons₂ _ (ih cur)

theorem earLoop_chain (l : List Msg) :
    ∀ prev : Msg, List.Chain RoleOk prev (earLoop prev l) := by
  induction l with
  | nil => intro _; simp [earLoop]
  | cons cur rest ih =>
      intro prev
      simp only [earLoop]
      split
      · rename_i hcond
        obtain ⟨hrole, hns⟩ := hcond
        split
        · rename_i hu
          refine List.Chain.cons ?_ (List.Chain.cons ?_ (ih cur))
          · simp [RoleOk, fillerAssistant, hrole ▸ hu]
          · simp [RoleOk, fillerAssistant, hu]
        · rename_i hnu
          have ha : cur.role = Role.assistant := by
            cases h : cur.role
            · exact absurd h hns
            · exact absurd h hnu
            · rfl
          refine List.Chain.cons ?_ (List.Chain.cons ?_ (ih cur))
          · simp [RoleOk, fillerUser, hrole ▸ ha]
          · simp [RoleOk, fillerUser, ha]
      · rename_i hcond
        exact List.Chain.cons hcond (ih cur)

theorem ear_chain (ms : List Msg) :
    List.Chain' RoleOk (ensure_alternating_roles ms) := by
  cases ms with
  | nil => simp [ensure_alternating_roles]
  | cons m rest => exact earLoop_chain rest m

theorem ear_sublist (ms : List Msg) : ms.Sublist (ensure_alternating_roles ms) := by
  cases ms with
  | nil => simp [ensure_alternating_roles]
  | cons m rest => exact List.Sublist.cons₂ _ (earLoop_sublist rest m)

theorem ear_mem (ms : List Msg) :
    ∀ m ∈ ensure_alternating_roles ms, m ∈ ms ∨ m = fillerAssistant ∨ m = fillerUser := by
  cases ms with
  | nil => intro m hm; simp [ensure_alternating_roles] at hm
  | cons x rest =>
      intro m hm
      simp only [ensure_alternating_roles] at hm
      rcases List.mem_cons.mp hm with hm | hm
      · left; simp [hm]
      · rcases earLoop_mem rest x m hm with h | h
        · left; exact List.mem_cons_of_mem _ h
        · right; exact h

theorem earLoop_getLast (l : List Msg) :
    ∀ prev : Msg, (prev :: earLoop prev l).getLast? = (prev :: l).getLast? := by
  induction l with
  | nil => intro prev; simp [earLoop]
  | cons cur rest ih =>
      intro prev
      simp only [earLoop]
      split
      · rw [List.getLast?_cons_cons, List.getLast?_cons_cons, ih cur,
          List.getLast?_cons_cons]
      · rw [List.getLast?_cons_cons, ih cur, List.getLast?_cons_cons]

theorem ear_getLast (ms : List Msg) (h : ms ≠ []) :
    (ensure_alternating_roles ms).getLast? = ms.getLast? := by
  cases ms with
  | nil => exact absurd rfl h
  | cons m rest =>
      simp only [ensure_alternating_roles]
      exact earLoop_getLast rest m

/-! Structure of the transmission list. -/

theorem mts_structure (p : String) (hist : List Msg) :
    (∃ s t, buildMessagesToSend p hist = s :: t ∧ s.role = Role.system ∧
      ∀ m ∈ t, m.role ≠ Role.system) ∨
    (p = "" ∧ buildMessagesToSend p hist = hist ∧ ∀ m ∈ hist, m.role ≠ Role.system) := by
  rw [buildMessagesToSend_eq]
  cases hf : hist.find? (fun m => m.role == Role.system) with
  | some s =>
      left
      refine ⟨s, hist.filter (fun m => !(m.role == Role.system)), rfl, ?_, ?_⟩
      · simpa using List.find?_some hf
      · intro m hm; simpa using (List.mem_filter.mp hm).2
  | none =>
      by_cases hp : p = ""
      · right
        refine ⟨hp, by simp [hp], ?_⟩
        intro m hm; simpa using List.find?_eq_none.mp hf m hm
      · left
        refine ⟨⟨Role.system, p⟩, hist, by simp [hp], rfl, ?_⟩
        intro m hm; simpa using List.find?_eq_none.mp hf m hm

theorem mts_getLast (p : String) (h2 : List Msg) (u : Msg)
    (hu : u.role ≠ Role.system) :
    (buildMessagesToSend p (h2 ++ [u])).getLast? = some u := by
  rw [buildMessagesToSend_eq]
  have hfn : (h2 ++ [u]).filter (fun m => !(m.role == Role.system)) =
      h2.filter (fun m => !(m.role == Role.system)) ++ [u] := by
    rw [List.filter_append]
    simp [hu]
  cases hf : (h2 ++ [u]).find? (fun m => m.role == Role.system) with
  | some s =>
      rw [hfn, List.getLast?_eq_some_iff]
      exact ⟨s :: h2.filter (fun m => !(m.role == Role.system)), by simp⟩
  | none =>
      by_cases hp : p = ""
      · simp [hp]
      · rw [if_pos hp, List.getLast?_eq_some_iff]
        exact ⟨⟨Role.system, p⟩ :: h2, by simp⟩

theorem ear_structure (ms : List Msg)
    (h : ∃ s t, ms = s :: t ∧ s.role = Role.system ∧ ∀ m ∈ t, m.role ≠ Role.system) :
    ∃ s t2, ensure_alternating_roles ms = s :: t2 ∧ s.role = Role.system ∧
      ∀ m ∈ t2, m.role ≠ Role.system := by
  obtain ⟨s, t, hms, hs, ht⟩ := h
  subst hms
  refine ⟨s, earLoop s t, by simp [ensure_alternating_roles], hs, ?_⟩
  intro m hm
  rcases earLoop_mem t s m hm with h1 | h1 | h1
  · exact ht m h1
  · rw [h1]; simp [fillerAssistant]
  · rw [h1]; simp [fillerUser]

theorem ear_nonsys (ms : List Msg) (h : ∀ m ∈ ms, m.role ≠ Role.system) :
    ∀ m ∈ ensure_alternating_roles ms, m.role ≠ Role.system := by
  intro m hm
  rcases ear_mem ms m hm with h1 | h1 | h1
  · exact h m h1
  · rw [h1]; simp [fillerAssistant]
  · rw [h1]; simp [fillerUser]

theorem getLast_drop (l : List Msg) (k : Nat) (hk : k < l.length) :
    (l.drop k).getLast? = l.getLast? := by
  cases hd : (l.drop k).getLast? with
  | none =>
      rw [List.getLast?_eq_none_iff, List.drop_eq_nil_iff] at hd
      omega
  | some x =>
      rw [List.getLast?_eq_some_iff] at hd
      obtain ⟨ys, hys⟩ := hd
      have hx : l.getLast? = some x := by
        rw [List.getLast?_eq_some_iff]
        refine ⟨l.take k ++ ys, ?_⟩
        conv_lhs => rw [← List.take_append_drop k l]
        rw [hys, ← List.append_assoc]
      rw [hx]

theorem filter_sys_of_structure (s : Msg) (t : List Msg)
    (hs : s.role = Role.system) (ht : ∀ m ∈ t, m.role ≠ Role.system) :
    (s :: t).filter (fun m => m.role == Role.system) = [s] := by
  rw [List.filter_cons_of_pos (by simp [hs])]
  rw [List.filter_eq_nil_iff.mpr]
  intro m hm
  simp [ht m hm]

theorem filter_nonsys_of_structure (s : Msg) (t : List Msg)
    (hs : s.role = Role.system) (ht : ∀ m ∈ t, m.role ≠ Role.system) :
    (s :: t).filter (fun m => !(m.role == Role.system)) = t := by
  rw [List.filter_cons_of_neg (by simp [hs])]
  exact List.filter_eq_self.mpr (by intro m hm; simp [ht m hm])

theorem trim_sys_case (s : Msg) (t : List Msg) (u : Msg) (k : Nat)
    (hs : s.role = Role.system) (ht : ∀ m ∈ t, m.role ≠ Role.system)
    (hch : List.Chain' RoleOk (s :: t)) (htl : t.getLast? = some u)
    (hk : k < t.length) :
    List.Chain' RoleOk ([s] ++ t.drop k) ∧ ([s] ++ t.drop k).getLast? = some u ∧
      ∃ s2 t2, [s] ++ t.drop k = s2 :: t2 ∧ s2.role = Role.system ∧
        ∀ m ∈ t2, m.role ≠ Role.system := by
  have hdropmem : ∀ m ∈ t.drop k, m ∈ t := fun m hm => (List.drop_sublist k t).subset hm
  refine ⟨?_, ?_, s, t.drop k, rfl, hs, fun m hm => ht m (hdropmem m hm)⟩
  · rw [List.singleton_append, List.chain'_cons']
    constructor
    · intro y hy
      have hyt : y ∈ t := hdropmem y (List.mem_of_mem_head? hy)
      rintro ⟨hy1, _⟩
      rw [hs] at hy1
      exact (ht y hyt) hy1
    · exact (hch.tail).suffix (List.drop_suffix k t)
  · rw [List.getLast?_append, getLast_drop t k hk, htl]
    rfl

theorem trim_master (ms : List Msg) (u : Msg)
    (hch : List.Chain' RoleOk ms)
    (hlast : ms.getLast? = some u)
    (hu : u.role ≠ Role.system)
    (hstruct : (∃ s t, ms = s :: t ∧ s.role = Role.system ∧
        ∀ m ∈ t, m.role ≠ Role.system) ∨
      (∀ m ∈ ms, m.role ≠ Role.system)) :
    List.Chain' RoleOk (aggressiveTrim ms) ∧
    (aggressiveTrim ms).getLast? = some u ∧
    ((∃ s t, ms = s :: t ∧ s.role = Role.system ∧ ∀ m ∈ t, m.role ≠ Role.system) →
      ∃ s t2, aggressiveTrim ms = s :: t2 ∧ s.role = Role.system ∧
        ∀ m ∈ t2, m.role ≠ Role.system) := by
  simp only [aggressiveTrim]
  split
  case isFalse => exact ⟨hch, hlast, fun h => h⟩
  case isTrue =>
    rcases hstruct with ⟨s, t, hms, hs, ht⟩ | hall
    · subst hms
      rw [filter_sys_of_structure s t hs ht, filter_nonsys_of_structure s t hs ht]
      have htne : t ≠ [] := by
        intro h0
        subst h0
        have hsu : s = u := by simpa using hlast
        exact hu (hsu ▸ hs)
      have htl : t.getLast? = some u := by
        cases ht0 : t with
        | nil => exact absurd ht0 htne
        | cons y ys =>
            rw [ht0, List.getLast?_cons_cons] at hlast
            exact hlast
      split
      case isTrue hlen =>
          have h := trim_sys_case s t u (t.length - 10) hs ht hch htl (by omega)
          exact ⟨h.1, h.2.1, fun _ => h.2.2⟩
      case isFalse hlen =>
          have hkpos : 0 < t.length := by
            cases t with
            | nil => exact absurd rfl htne
            | cons _ _ => simp
          have h := trim_sys_case s t u 0 hs ht hch htl hkpos
          simp only [List.drop_zero] at h
          exact ⟨h.1, h.2.1, fun _ => h.2.2⟩
    · have hfs : ms.filter (fun m => m.role == Role.system) = [] := by
        rw [List.filter_eq_nil_iff]
        intro m hm
        simp [hall m hm]
      have hfn : ms.filter (fun m => !(m.role == Role.system)) = ms :=
        List.filter_eq_self.mpr (by intro m hm; simp [hall m hm])
      rw [hfs, hfn]
      have himp : ¬(∃ s t, ms = s :: t ∧ s.role = Role.system ∧
          ∀ m ∈ t, m.role ≠ Role.system) := by
        rintro ⟨s, t, hms, hs, _⟩
        have hsin : s ∈ ms := by rw [hms]; exact List.mem_cons_self _ _
        exact absurd hs (hall s hsin)
      have hmne : ms ≠ [] := by
        intro h0
        rw [h0] at hlast
        simp at hlast
      have hlen0 : 0 < ms.length := by
        cases ms with
        | nil => exact absurd rfl hmne
        | cons _ _ => simp
      split
      case isTrue hlen =>
          rw [List.nil_append]
          refine ⟨(hch.suffix (List.drop_suffix _ ms)), ?_, fun hx => absurd hx himp⟩
          rw [getLast_drop ms (ms.length - 10) (by omega), hlast]
      case isFalse hlen =>
          rw [List.nil_append]
          exact ⟨hch, hlast, fun hx => absurd hx himp⟩

theorem historyBeforeCall_shape (hist : List Msg) (msg : String) :
    ∃ h2, historyBeforeCall hist msg = h2 ++ [⟨Role.user, msg⟩] := ⟨_, rfl⟩

theorem payload_master (p : String) (hist : List Msg) (msg : String) :
    List.Chain' RoleOk (payloadOf p hist msg) ∧
    (payloadOf p hist msg).getLast? = some ⟨Role.user, msg⟩ ∧
    (p ≠ "" → ∃ s t, payloadOf p hist msg = s :: t ∧ s.role = Role.system ∧
      ∀ m ∈ t, m.role ≠ Role.system) := by
  obtain ⟨h2, hh3⟩ := historyBeforeCall_shape hist msg
  have hu : (⟨Role.user, msg⟩ : Msg).role ≠ Role.system := by simp
  have hml : (buildMessagesToSend p (historyBeforeCall hist msg)).getLast? =
      some ⟨Role.user, msg⟩ := by
    rw [hh3]
    exact mts_getLast p h2 _ hu
  have hstruct := mts_structure p (historyBeforeCall hist msg)
  have hne : buildMessagesToSend p (historyBeforeCall hist msg) ≠ [] := by
    intro h0
    rw [h0] at hml
    simp at hml
  have hel : (ensure_alternating_roles
      (buildMessagesToSend p (historyBeforeCall hist msg))).getLast? =
      some ⟨Role.user, msg⟩ := by
    rw [ear_getLast _ hne]
    exact hml
  have hestruct : (∃ s t, ensure_alternating_roles
        (buildMessagesToSend p (historyBeforeCall hist msg)) = s :: t ∧
        s.role = Role.system ∧ ∀ m ∈ t, m.role ≠ Role.system) ∨
      (∀ m ∈ ensure_alternating_roles
        (buildMessagesToSend p (historyBeforeCall hist msg)), m.role ≠ Role.system) := by
    rcases hstruct with h | ⟨_, hmt, hall⟩
    · exact Or.inl (ear_structure _ h)
    · refine Or.inr (ear_nonsys _ ?_)
      rw [hmt]
      exact hall
  have htrim := trim_master _ _ (ear_chain _) hel hu hestruct
  refine ⟨htrim.1, htrim.2.1, ?_⟩
  intro hp
  rcases hstruct with h | ⟨hp0, _, _⟩
  · exact htrim.2.2 (ear_structure _ h)
  · exact absurd hp0 hp

/-! Lemmas about the memory fold. -/

theorem foldLoop_select (l : List Memory) :
    ∀ (c : String) (t : Nat),
      foldLoop l c t = ((foldSelect l t).foldl (fun acc m => memBlock m ++ acc) c,
        t + ((foldSelect l t).map (fun m => (memBlock m).length / 2)).sum) := by
  induction l with
  | nil => intro c t; simp [foldLoop, foldSelect]
  | cons m rest ih =>
      intro c t
      simp only [foldLoop, foldSelect]
      split
      · rw [ih]
      · rw [ih]
        simp [List.foldl_cons, List.map_cons, List.sum_cons, Nat.add_assoc]

theorem foldLoop_bound (l : List Memory) :
    ∀ (c : String) (t : Nat), t ≤ 10000 → (foldLoop l c t).2 ≤ 10000 := by
  induction l with
  | nil => intro c t h; exact h
  | cons m rest ih =>
      intro c t h
      simp only [foldLoop]
      split
      · exact ih c t h
      · rename_i hc
        exact ih _ _ (by omega)

theorem foldl_blocks_shape (sel : List Memory) :
    ∀ c : String, ∃ u : String,
      sel.foldl (fun acc m => memBlock m ++ acc) c = u ++ c := by
  induction sel with
  | nil => intro c; exact ⟨"", by simp⟩
  | cons m rest ih =>
      intro c
      obtain ⟨u, hu⟩ := ih (memBlock m ++ c)
      refine ⟨u ++ memBlock m, ?_⟩
      rw [List.foldl_cons, hu, String.append_assoc]

theorem foldl_blocks_mem (sel : List Memory) :
    ∀ (m : Memory), m ∈ sel → ∀ c : String, ∃ u v : String,
      sel.foldl (fun acc x => memBlock x ++ acc) c = u ++ memBlock m ++ v := by
  induction sel with
  | nil => intro m hm; cases hm
  | cons x rest ih =>
      intro m hm c
      rcases List.mem_cons.mp hm with h | h
      · subst h
        obtain ⟨u, hu⟩ := foldl_blocks_shape rest (memBlock m ++ c)
        refine ⟨u, c, ?_⟩
        rw [List.foldl_cons, hu, ← String.append_assoc]
      · obtain ⟨u, v, huv⟩ := ih m h (memBlock x ++ c)
        refine ⟨u, v, ?_⟩
        rw [List.foldl_cons, huv]

/-! Lemmas about memory selection. -/

theorem get_memories_empty (q : String) : get_memories [] q = [] := by
  unfold get_memories
  split <;> simp

theorem foldl_get_memories_nil (bank : List Memory) (ps : List String)
    (h : ∀ q ∈ ps, get_memories bank q = []) :
    ∀ acc, ps.foldl (fun acc q => acc ++ get_memories bank q) acc = acc := by
  induction ps with
  | nil => intro acc; rfl
  | cons q rest ih =>
      intro acc
      rw [List.foldl_cons, h q (List.mem_cons_self _ _), List.append_nil]
      exact ih (fun r hr => h r (List.mem_cons_of_mem _ hr)) acc

theorem memoriesToInject_empty (phases : Option (List String)) :
    memoriesToInject [] phases = [] := by
  cases phases with
  | none => rfl
  | some ps =>
      simp only [memoriesToInject]
      split
      · exact foldl_get_memories_nil [] ps (fun q _ => get_memories_empty q) []
      · rfl

theorem inject_noop_of_empty_selection (bank : List Memory)
    (phases : Option (List String)) (hist : List Msg)
    (h : memoriesToInject bank phases = []) :
    inject_memories_to_context bank phases hist = hist := by
  simp only [inject_memories_to_context]
  rw [if_pos h]

/-! Schematic evaluation lemmas for a one-primer history, general in the
message string so that no proof step ever normalizes a huge literal. -/

theorem msgCost_mk (r : Role) (s : String) : msgCost ⟨r, s⟩ = s.length / 2 := rfl

theorem cost_primer_user (msg : String) :
    listCost [⟨Role.system, "s"⟩, ⟨Role.user, msg⟩] = msg.length / 2 := by
  rw [listCost_cons, listCost_cons, listCost_nil, msgCost_mk, msgCost_mk]
  rw [show ("s" : String).length = 1 from rfl]
  omega

theorem hbc_primer (msg : String) :
    historyBeforeCall [⟨Role.system, "s"⟩] msg =
      [⟨Role.system, "s"⟩, ⟨Role.user, msg⟩] := by
  simp only [historyBeforeCall]
  rw [manage_eq_of_le 35000 _ (by decide)]
  rfl

theorem bmts_primer (msg : String) :
    buildMessagesToSend "s" [⟨Role.system, "s"⟩, ⟨Role.user, msg⟩] =
      [⟨Role.system, "s"⟩, ⟨Role.user, msg⟩] := by
  rw [buildMessagesToSend_eq]
  rfl

theorem ear_primer (msg : String) :
    ensure_alternating_roles [⟨Role.system, "s"⟩, ⟨Role.user, msg⟩] =
      [⟨Role.system, "s"⟩, ⟨Role.user, msg⟩] := rfl

theorem trim_primer_over (msg : String)
    (h : listCost [⟨Role.system, "s"⟩, ⟨Role.user, msg⟩] > 60000) :
    aggressiveTrim [⟨Role.system, "s"⟩, ⟨Role.user, msg⟩] =
      [⟨Role.system, "s"⟩, ⟨Role.user, msg⟩] := by
  simp only [aggressiveTrim]
  rw [if_pos h]
  rfl

theorem payload_primer_over (msg : String)
    (h : listCost [⟨Role.system, "s"⟩, ⟨Role.user, msg⟩] > 60000) :
    payloadOf "s" [⟨Role.system, "s"⟩] msg =
      [⟨Role.system, "s"⟩, ⟨Role.user, msg⟩] := by
  simp only [payloadOf]
  rw [hbc_primer, bmts_primer, ear_primer, trim_primer_over msg h]

/-! Claim theorems. -/

/-- Claim C1, amended.  The original capacity invariant fails for the
transmission list (see claim_C1_counterexample): the new user turn and
the alternation fillers are appended after eviction, and the final 60000
check keeps the 10 most recent non-system messages without re-checking
cost.  What does hold is the stored-history invariant: after
manage_history_length with budget C, the history estimated cost is at
most C, provided the system messages together cost at most C. -/
theorem claim_C1_capacity (C : Nat) (hist : List Msg)
    (hsys : listCost (hist.filter (fun m => m.role == Role.system)) ≤ C) :
    listCost (manage_history_length C hist) ≤ C :=
  manage_cost_le C hist hsys

/-- Claim C1 witness: a concrete over-budget history is evicted to within
the capacity 10. -/
theorem claim_C1_witness :
    listCost (manage_history_length 10 [⟨Role.system, "ab"⟩, ⟨Role.user, "cdefgh"⟩,
      ⟨Role.user, "xxxxxxxxxxxxxxxxxxxxxxxxxx"⟩]) ≤ 10 :=
  claim_C1_capacity 10 [⟨Role.system, "ab"⟩, ⟨Role.user, "cdefgh"⟩,
    ⟨Role.user, "xxxxxxxxxxxxxxxxxxxxxxxxxx"⟩] (by decide)

/-- Claim C3: the transmission list never carries two adjacent non-system
messages of the same role; the repair is done by ensure_alternating_roles
inserting a synthetic filler, which keeps the whole input as a sublist
(no real turn is discarded or rejected) and adds only the two canned
filler messages. -/
theorem claim_C3_alternation :
    (∀ (p : String) (hist : List Msg) (msg : String) (l1 l2 : List Msg) (a b : Msg),
        payloadOf p hist msg = l1 ++ a :: b :: l2 →
        a.role ≠ Role.system → b.role ≠ Role.system → a.role ≠ b.role) ∧
    (∀ ms : List Msg, ms.Sublist (ensure_alternating_roles ms)) ∧
    (∀ ms : List Msg, ∀ m ∈ ensure_alternating_roles ms,
        m ∈ ms ∨ m = fillerAssistant ∨ m = fillerUser) := by
  refine ⟨?_, ear_sublist, ear_mem⟩
  intro p hist msg l1 l2 a b hpl _ hb
  have hch := (payload_master p hist msg).1
  rw [hpl] at hch
  have hr : RoleOk a b := (List.chain'_cons.mp (List.chain'_append.mp hch).2.1).1
  intro hab
  exact hr ⟨hab.symm, hb⟩

/-- Claim C3 witness: in a concrete transmission list the adjacent
non-system pair has distinct roles. -/
theorem claim_C3_witness :
    (⟨Role.user, "a"⟩ : Msg).role ≠ (⟨Role.assistant, "b"⟩ : Msg).role :=
  claim_C3_alternation.1 "s" [⟨Role.system, "s"⟩, ⟨Role.user, "a"⟩,
    ⟨Role.assistant, "b"⟩] "hi" [⟨Role.system, "s"⟩] [⟨Role.user, "hi"⟩]
    ⟨Role.user, "a"⟩ ⟨Role.assistant, "b"⟩ (by decide) (by decide) (by decide)

/-- Claim C6, amended.  The source defines no ConfigurationError and
never fails: when the capacity is below the cost of the system messages,
manage_history_length silently keeps exactly the system messages (here
with at most 3 of them, so that the trimming sub-branch is not taken)
and drops every non-system turn, returning a history that still exceeds
the capacity, with no error signaled to the caller. -/
theorem claim_C6_no_error (C : Nat) (hist : List Msg)
    (hover : C < listCost (hist.filter (fun m => m.role == Role.system)))
    (hlen : (hist.filter (fun m => m.role == Role.system)).length ≤ 3) :
    manage_history_length C hist = hist.filter (fun m => m.role == Role.system) ∧
    C < listCost (manage_history_length C hist) := by
  have h := manage_oversys C hist hover hlen
  exact ⟨h, by rw [h]; exact hover⟩

/-- Claim C6 witness: capacity 7, primer of cost 10. -/
theorem claim_C6_witness :
    manage_history_length 7 [⟨Role.system, "01234567890123456789"⟩, ⟨Role.user, "cd"⟩] =
      [⟨Role.system, "01234567890123456789"⟩] ∧
    7 < listCost (manage_history_length 7
      [⟨Role.system, "01234567890123456789"⟩, ⟨Role.user, "cd"⟩]) :=
  claim_C6_no_error 7 [⟨Role.system, "01234567890123456789"⟩, ⟨Role.user, "cd"⟩]
    (by decide) (by decide)

/-- Claim C6 counterexample: with capacity 10 and a primer of cost 20 the
build does not fail and signals nothing — the code has no ConfigurationError
at all — it silently returns the primer alone, still over budget. -/
theorem claim_C6_counterexample :
    manage_history_length 10
      [⟨Role.system, "0123456789012345678901234567890123456789"⟩, ⟨Role.user, "ab"⟩] =
      [⟨Role.system, "0123456789012345678901234567890123456789"⟩] ∧
    10 < listCost (manage_history_length 10
      [⟨Role.system, "0123456789012345678901234567890123456789"⟩, ⟨Role.user, "ab"⟩]) := by
  decide

/-- Claim C8, amended.  Eviction never alters a stored turn: every
message kept by manage_history_length is one of the input messages, with
role and text unchanged.  The overflow-retry path, by contrast, does
mutate the most recent user turn in place (see claim_C8_counterexample). -/
theorem claim_C8_no_mutation (C : Nat) (hist : List Msg) :
    ∀ m ∈ manage_history_length C hist, m ∈ hist :=
  manage_mem C hist

/-- Claim C8 witness: a kept message is one of the stored messages. -/
theorem claim_C8_witness :
    (⟨Role.user, "ab"⟩ : Msg) ∈ [⟨Role.system, "s"⟩, ⟨Role.user, "ab"⟩] :=
  claim_C8_no_mutation 40000 [⟨Role.system, "s"⟩, ⟨Role.user, "ab"⟩]
    ⟨Role.user, "ab"⟩ (by decide)

/-- Claim C2, amended.  The transmission list contains exactly one
System-role entry, as its leading element; every other System turn in
storage — including a pinned memory entry — is excluded from
transmission (the source keeps only the first system message and ignores
the rest, so the claimed second System entry never survives;
see claim_C2_counterexample). -/
theorem claim_C2_primer_unique (p : String) (hist : List Msg) (msg : String)
    (hp : p ≠ "") :
    ∃ s t, payloadOf p hist msg = s :: t ∧ s.role = Role.system ∧
      (∀ m ∈ t, m.role ≠ Role.system) ∧
      ((payloadOf p hist msg).filter (fun m => m.role == Role.system)).length = 1 := by
  obtain ⟨s, t, hpay, hs, ht⟩ := (payload_master p hist msg).2.2 hp
  refine ⟨s, t, hpay, hs, ht, ?_⟩
  rw [hpay, filter_sys_of_structure s t hs ht]
  rfl

/-- Claim C2 witness: concrete storage with a primer. -/
theorem claim_C2_witness :
    ∃ s t, payloadOf "p" [] "hi" = s :: t ∧ s.role = Role.system ∧
      (∀ m ∈ t, m.role ≠ Role.system) ∧
      ((payloadOf "p" [] "hi").filter (fun m => m.role == Role.system)).length = 1 :=
  claim_C2_primer_unique "p" [] "hi" (by decide)

/-- Claim C2 counterexample: with a pinned memory entry in storage the
transmission list still contains exactly one System entry and the pinned
entry is absent, contradicting the claimed retention of the pinned entry
as a second System entry. -/
theorem claim_C2_counterexample :
    ((payloadOf "p" [⟨Role.system, "p"⟩, ⟨Role.user, "u"⟩,
        ⟨Role.system, "--- X 阶段总结 ---\nm\n\n"⟩] "hi").filter
      (fun m => m.role == Role.system)).length = 1 ∧
    (⟨Role.system, "--- X 阶段总结 ---\nm\n\n"⟩ : Msg) ∉
      payloadOf "p" [⟨Role.system, "p"⟩, ⟨Role.user, "u"⟩,
        ⟨Role.system, "--- X 阶段总结 ---\nm\n\n"⟩] "hi" := by
  decide

/-- Claim C9, amended.  On a remote failure not classified as
context-too-large, get_response makes no retry (exactly one remote call),
leaves the stored history as it was at call time (the reply-append of the
success path does not happen), and returns the error message with the
fixed prefix; the return is a plain string in the same channel as a
successful reply, so it is not distinguishable by type
(see claim_C9_counterexample). -/
theorem claim_C9_transport_error (p : String) (hist : List Msg) (msg : String)
    (oracle : List Msg → Except String String) (e : String)
    (h1 : oracle (payloadOf p hist msg) = Except.error e)
    (h2 : isContextError e = false) :
    get_response p hist msg oracle =
      ⟨"API调用出错: " ++ e, historyBeforeCall hist msg, [payloadOf p hist msg]⟩ := by
  simp only [get_response, h1, h2]
  rfl

/-- Claim C9 witness: a concrete transport error is returned with the
prefix, without retry, leaving the stored history untouched. -/
theorem claim_C9_witness :
    get_response "s" [] "hi" (fun _ => Except.error "boom") =
      ⟨"API调用出错: " ++ "boom", historyBeforeCall [] "hi", [payloadOf "s" [] "hi"]⟩ :=
  claim_C9_transport_error "s" [] "hi" (fun _ => Except.error "boom") "boom"
    rfl (by decide)

/-- Claim C9 counterexample: the error result is a plain string, so a
successful reply that happens to equal it is indistinguishable from the
error, and the error message is returned with a prefix rather than
verbatim. -/
theorem claim_C9_counterexample :
    (get_response "s" [] "hi" (fun _ => Except.error "boom")).reply =
      (get_response "s" [] "hi" (fun _ => Except.ok "API调用出错: boom")).reply ∧
    (get_response "s" [] "hi" (fun _ => Except.error "boom")).reply ≠ "boom" := by
  decide

/-- Claim C10, amended.  inject_memories_to_context is a no-op exactly
when the selection is empty: when the memory bank is empty, or when a
nonempty list of nonempty phase names matches no entry.  (An empty phases
list — and likewise an empty-string phase name — is falsy in Python, so
it selects the whole bank rather than nothing; see
claim_C10_counterexample.) -/
theorem claim_C10_inject_noop (bank : List Memory) (phases : Option (List String))
    (hist : List Msg) :
    (bank = [] → inject_memories_to_context bank phases hist = hist) ∧
    (∀ ps, phases = some ps → ps ≠ [] →
      (∀ q ∈ ps, q ≠ "" ∧ ∀ m ∈ bank, m.phase ≠ q) →
      inject_memories_to_context bank phases hist = hist) := by
  constructor
  · intro hb
    subst hb
    exact inject_noop_of_empty_selection [] phases hist (memoriesToInject_empty phases)
  · intro ps hps hne hmatch
    subst hps
    apply inject_noop_of_empty_selection
    simp only [memoriesToInject]
    rw [if_pos hne]
    apply foldl_get_memories_nil
    intro q hq
    obtain ⟨hq0, hqm⟩ := hmatch q hq
    unfold get_memories
    rw [if_pos hq0, List.filter_eq_nil_iff]
    intro m hm
    simp [hqm m hm]

/-- Claim C10 witness: a nonempty bank with a non-matching nonempty phase
list is left untouched, as is the history. -/
theorem claim_C10_witness :
    inject_memories_to_context [⟨"A", "x"⟩] (some ["B"]) [⟨Role.system, "p"⟩] =
      [⟨Role.system, "p"⟩] :=
  (claim_C10_inject_noop [⟨"A", "x"⟩] (some ["B"]) [⟨Role.system, "p"⟩]).2
    ["B"] rfl (by decide) (by decide)

/-- Claim C10 counterexample: with phases given as the empty list — so
that no entry phase matches any requested phase — the code does not
return immediately: it selects the entire bank and injects a memory
message, changing the history. -/
theorem claim_C10_counterexample :
    inject_memories_to_context [⟨"A", "x"⟩] (some []) [⟨Role.system, "p"⟩] ≠
      [⟨Role.system, "p"⟩] := by
  decide

/-- Claim C1 counterexample: a single user message of 140000 characters
is appended after eviction, so the transmission list costs 70000 — above
the 35000 eviction budget, the 40000 default, and even the final 60000
check (which keeps the 10 most recent non-system messages without
re-checking cost) — while the primer cost 0 satisfies the proviso that
capacity is at least the primer cost. -/
theorem claim_C1_counterexample :
    msgCost ⟨Role.system, "s"⟩ ≤ 35000 ∧
    60000 < listCost (payloadOf "s" [⟨Role.system, "s"⟩]
      (String.mk (List.replicate 140000 'a'))) := by
  have hcost : listCost [⟨Role.system, "s"⟩,
      ⟨Role.user, String.mk (List.replicate 140000 'a')⟩] = 70000 := by
    rw [cost_primer_user, String.length_mk, List.length_replicate]
  refine ⟨by decide, ?_⟩
  rw [payload_primer_over _ (by rw [hcost]; norm_num), hcost]
  norm_num

/-- Claim C4: on a context-too-large failure get_response issues exactly
one retry (the calls list has exactly the first payload and the retry
payload); the retry payload is the single system message of the first
payload (the primer) followed by the most recent user turn, its text
truncated with the literal marker when over 4000 characters; on retry
success the reply is appended to storage and the history is shrunk with
the much smaller budget 20000 before the reply is returned. -/
theorem claim_C4_overflow_retry (p : String) (hist : List Msg) (msg : String)
    (oracle : List Msg → Except String String) (e r : String)
    (hp : p ≠ "")
    (h1 : oracle (payloadOf p hist msg) = Except.error e)
    (hc : isContextError e = true)
    (h2 : oracle ((payloadOf p hist msg).filter (fun m => m.role == Role.system) ++
        [truncIfLong ⟨Role.user, msg⟩]) = Except.ok r) :
    ∃ s, (payloadOf p hist msg).filter (fun m => m.role == Role.system) = [s] ∧
      s.role = Role.system ∧
      get_response p hist msg oracle =
        ⟨r, manage_history_length 20000 ((historyBeforeCall hist msg).dropLast ++
            [truncIfLong ⟨Role.user, msg⟩] ++ [⟨Role.assistant, r⟩]),
          [payloadOf p hist msg, [s, truncIfLong ⟨Role.user, msg⟩]]⟩ := by
  obtain ⟨s, t, hpay, hs, ht⟩ := (payload_master p hist msg).2.2 hp
  have hfs : (payloadOf p hist msg).filter (fun m => m.role == Role.system) = [s] := by
    rw [hpay]
    exact filter_sys_of_structure s t hs ht
  have hful : ((payloadOf p hist msg).filter (fun m => m.role == Role.user)).getLast? =
      some ⟨Role.user, msg⟩ := by
    have hl := (payload_master p hist msg).2.1
    rw [List.getLast?_eq_some_iff] at hl
    obtain ⟨q, hq⟩ := hl
    rw [hq, List.filter_append]
    simp
  rw [hfs] at h2
  refine ⟨s, hfs, hs, ?_⟩
  simp only [get_response, h1, hc, if_true, hful, hfs, h2]
  rfl

/-- Claim C4 witness: a concrete overflow followed by a successful retry. -/
theorem claim_C4_witness :
    ∃ s, (payloadOf "s" [⟨Role.system, "s"⟩, ⟨Role.user, "a"⟩, ⟨Role.assistant, "b"⟩]
        "hi").filter (fun m => m.role == Role.system) = [s] ∧
      s.role = Role.system ∧
      get_response "s" [⟨Role.system, "s"⟩, ⟨Role.user, "a"⟩, ⟨Role.assistant, "b"⟩]
        "hi" (fun ms => if 2 < ms.length then Except.error "context length"
          else Except.ok "R") =
        ⟨"R", manage_history_length 20000
            ((historyBeforeCall [⟨Role.system, "s"⟩, ⟨Role.user, "a"⟩,
                ⟨Role.assistant, "b"⟩] "hi").dropLast ++
              [truncIfLong ⟨Role.user, "hi"⟩] ++ [⟨Role.assistant, "R"⟩]),
          [payloadOf "s" [⟨Role.system, "s"⟩, ⟨Role.user, "a"⟩, ⟨Role.assistant, "b"⟩]
            "hi", [s, truncIfLong ⟨Role.user, "hi"⟩]]⟩ :=
  claim_C4_overflow_retry "s"
    [⟨Role.system, "s"⟩, ⟨Role.user, "a"⟩, ⟨Role.assistant, "b"⟩] "hi"
    (fun ms => if 2 < ms.length then Except.error "context length" else Except.ok "R")
    "context length" "R" (by decide) rfl (by decide) rfl

/-! Further schematic helpers for the fold and retry computations. -/

theorem memBlock_length (ph c : String) :
    (memBlock ⟨ph, c⟩).length = 16 + ph.length + c.length := by
  show ("--- " ++ ph ++ " 阶段总结 ---\n" ++ c ++ "\n\n").length = 16 + ph.length + c.length
  rw [String.length_append, String.length_append, String.length_append,
    String.length_append]
  rw [show ("--- " : String).length = 4 from rfl,
    show (" 阶段总结 ---\n" : String).length = 10 from rfl,
    show ("\n\n" : String).length = 2 from rfl]
  omega

theorem take_replicate_le {α : Type} (a : α) :
    ∀ (m n : Nat), m ≤ n → (List.replicate n a).take m = List.replicate m a := by
  intro m
  induction m with
  | zero => intro n _; rfl
  | succ k ih =>
      intro n h
      cases n with
      | zero => omega
      | succ n2 =>
          rw [List.replicate_succ, List.take_succ_cons, ih n2 (by omega),
            ← List.replicate_succ]

theorem filter_user_primer (msg : String) :
    ([⟨Role.system, "s"⟩, ⟨Role.user, msg⟩] : List Msg).filter
      (fun m => m.role == Role.user) = [⟨Role.user, msg⟩] := rfl

theorem filter_sys_primer (msg : String) :
    ([⟨Role.system, "s"⟩, ⟨Role.user, msg⟩] : List Msg).filter
      (fun m => m.role == Role.system) = [⟨Role.system, "s"⟩] := rfl

theorem truncIfLong_mk (r : Role) (s : String) :
    truncIfLong ⟨r, s⟩ = if s.length > 4000 then
      ⟨r, String.mk (s.data.take 4000) ++ "...(内容已截断)"⟩ else ⟨r, s⟩ := rfl

theorem dropLast_pair (x y : Msg) : ([x, y] : List Msg).dropLast = [x] := rfl

theorem trim_primer_under (msg : String)
    (h : ¬ listCost [⟨Role.system, "s"⟩, ⟨Role.user, msg⟩] > 60000) :
    aggressiveTrim [⟨Role.system, "s"⟩, ⟨Role.user, msg⟩] =
      [⟨Role.system, "s"⟩, ⟨Role.user, msg⟩] := by
  simp only [aggressiveTrim]
  rw [if_neg h]

theorem payload_primer_under (msg : String)
    (h : ¬ listCost [⟨Role.system, "s"⟩, ⟨Role.user, msg⟩] > 60000) :
    payloadOf "s" [⟨Role.system, "s"⟩] msg =
      [⟨Role.system, "s"⟩, ⟨Role.user, msg⟩] := by
  simp only [payloadOf]
  rw [hbc_primer, bmts_primer, ear_primer, trim_primer_under msg h]

/-- Claim C5, amended.  The fold does iterate newest to oldest and never
truncates an entry mid-text, but on hitting an entry that does not fit it
skips that entry and continues with older ones rather than stopping, so
an older entry can be included while a newer one is omitted
(see claim_C5_counterexample).  What holds: the accumulated cost stays
within the 10000 ceiling; the folded text consists exactly of the blocks
of the entries selected by the skip-and-continue scan (foldSelect); and
every selected block appears whole in the folded text. -/
theorem claim_C5_fold (ms : List Memory) :
    (foldMemories ms).2 ≤ 10000 ∧
    (foldMemories ms).1 =
      (foldSelect ms.reverse 0).foldl (fun acc m => memBlock m ++ acc) memoryHeader ∧
    ∀ m ∈ foldSelect ms.reverse 0,
      strContains (foldMemories ms).1 (memBlock m) = true := by
  have hsel := foldLoop_select ms.reverse memoryHeader 0
  refine ⟨foldLoop_bound ms.reverse memoryHeader 0 (by omega), ?_, ?_⟩
  · show (foldLoop ms.reverse memoryHeader 0).1 = _
    rw [hsel]
  · intro m hm
    show strContains (foldLoop ms.reverse memoryHeader 0).1 (memBlock m) = true
    rw [hsel]
    obtain ⟨u, v, huv⟩ := foldl_blocks_mem (foldSelect ms.reverse 0) m hm memoryHeader
    rw [huv]
    exact strContains_of_parts u v (memBlock m)

/-- Claim C5 witness: a single small entry is selected and its whole
block appears in the folded text. -/
theorem claim_C5_witness :
    strContains (foldMemories [⟨"A", "aa"⟩]).1 (memBlock ⟨"A", "aa"⟩) = true :=
  (claim_C5_fold [⟨"A", "aa"⟩]).2.2 ⟨"A", "aa"⟩ (by decide)

/-- Claim C5 counterexample: with an older entry A that fits and a newer
entry B whose block alone exceeds the ceiling, the fold skips B and still
includes A, so an included entry is strictly older than an omitted one —
the scan does not stop at the first overflow. -/
theorem claim_C5_counterexample :
    strContains (foldMemories [⟨"A", "aa"⟩,
        ⟨"B", String.mk (List.replicate 20100 'a')⟩]).1 (memBlock ⟨"A", "aa"⟩) = true ∧
    strContains (foldMemories [⟨"A", "aa"⟩,
        ⟨"B", String.mk (List.replicate 20100 'a')⟩]).1
      (memBlock ⟨"B", String.mk (List.replicate 20100 'a')⟩) = false := by
  have hbig : (memBlock ⟨"B", String.mk (List.replicate 20100 'a')⟩).length / 2 =
      10058 := by
    rw [memBlock_length, String.length_mk (List.replicate 20100 'a'),
      List.length_replicate, show ("B" : String).length = 1 from rfl]
  have hA : (memBlock ⟨"A", "aa"⟩).length / 2 = 9 := by decide
  have hfold : foldMemories [⟨"A", "aa"⟩, ⟨"B", String.mk (List.replicate 20100 'a')⟩] =
      (memBlock ⟨"A", "aa"⟩ ++ memoryHeader, 9) := by
    show foldLoop [⟨"B", String.mk (List.replicate 20100 'a')⟩, ⟨"A", "aa"⟩]
      memoryHeader 0 = (memBlock ⟨"A", "aa"⟩ ++ memoryHeader, 9)
    simp only [foldLoop]
    rw [hbig, hA]
    norm_num
  rw [hfold]
  exact ⟨by decide, by decide⟩

/-- Claim C7 (code bug): when no memory fits the ceiling, the injected
placeholder message does not contain the marker 阶段总结 that the removal
filter looks for, so a second injection fails to remove the first
placeholder and the history accumulates two pinned memory messages —
contradicting both the claim and the source comment 先清除之前的记忆系统
消息，避免重复 (first clear previous memory system messages, avoid
duplication). -/
theorem claim_C7_placeholder_dup :
    inject_memories_to_context [⟨"X", String.mk (List.replicate 20100 'a')⟩] none
      (inject_memories_to_context [⟨"X", String.mk (List.replicate 20100 'a')⟩] none
        [⟨Role.system, "p"⟩]) =
      [⟨Role.system, "p"⟩, ⟨Role.system, memoryHeader ++ memoryUnavailable⟩,
        ⟨Role.system, memoryHeader ++ memoryUnavailable⟩] := by
  have hbigX : (memBlock ⟨"X", String.mk (List.replicate 20100 'a')⟩).length / 2 =
      10058 := by
    rw [memBlock_length, String.length_mk (List.replicate 20100 'a'),
      List.length_replicate, show ("X" : String).length = 1 from rfl]
  have hfm : foldMemories [⟨"X", String.mk (List.replicate 20100 'a')⟩] =
      (memoryHeader, 0) := by
    show foldLoop [⟨"X", String.mk (List.replicate 20100 'a')⟩] memoryHeader 0 =
      (memoryHeader, 0)
    simp only [foldLoop]
    rw [hbigX]
    norm_num
  have hmc : memoryContentOf [⟨"X", String.mk (List.replicate 20100 'a')⟩] =
      memoryHeader ++ memoryUnavailable := by
    simp only [memoryContentOf]
    rw [hfm]
    rfl
  have hstep1 : inject_memories_to_context
      [⟨"X", String.mk (List.replicate 20100 'a')⟩] none [⟨Role.system, "p"⟩] =
      [⟨Role.system, "p"⟩, ⟨Role.system, memoryHeader ++ memoryUnavailable⟩] := by
    simp only [inject_memories_to_context, memoriesToInject]
    rw [if_neg (List.cons_ne_nil _ _), hmc]
    decide
  have hstep2 : inject_memories_to_context
      [⟨"X", String.mk (List.replicate 20100 'a')⟩] none
      [⟨Role.system, "p"⟩, ⟨Role.system, memoryHeader ++ memoryUnavailable⟩] =
      [⟨Role.system, "p"⟩, ⟨Role.system, memoryHeader ++ memoryUnavailable⟩,
        ⟨Role.system, memoryHeader ++ memoryUnavailable⟩] := by
    simp only [inject_memories_to_context, memoriesToInject]
    rw [if_neg (List.cons_ne_nil _ _), hmc]
    decide
  rw [hstep1]
  exact hstep2

/-- Claim C8 counterexample: in the overflow-retry path the most recent
user turn — present in storage at call time with its full 5000-character
text — is truncated in place: after get_response returns, storage holds
the truncated turn at the same position and the original turn is gone,
without any removal-and-reappend of an equal turn.  The oracle fails with
a context-length error on the 2500-cost first payload and accepts the
2005-cost retry. -/
theorem claim_C8_counterexample :
    (⟨Role.user, String.mk (List.replicate 5000 'a')⟩ : Msg) ∈
      historyBeforeCall [⟨Role.system, "s"⟩] (String.mk (List.replicate 5000 'a')) ∧
    (get_response "s" [⟨Role.system, "s"⟩] (String.mk (List.replicate 5000 'a'))
        (fun ms => if 2100 < listCost ms then Except.error "context length"
          else Except.ok "R")).history =
      [⟨Role.system, "s"⟩,
        ⟨Role.user, String.mk (List.replicate 4000 'a') ++ "...(内容已截断)"⟩,
        ⟨Role.assistant, "R"⟩] ∧
    (⟨Role.user, String.mk (List.replicate 5000 'a')⟩ : Msg) ∉
      (get_response "s" [⟨Role.system, "s"⟩] (String.mk (List.replicate 5000 'a'))
        (fun ms => if 2100 < listCost ms then Except.error "context length"
          else Except.ok "R")).history := by
  have hlen5 : (String.mk (List.replicate 5000 'a')).length = 5000 := by
    rw [String.length_mk, List.length_replicate]
  have hcostp : listCost [⟨Role.system, "s"⟩,
      ⟨Role.user, String.mk (List.replicate 5000 'a')⟩] = 2500 := by
    rw [cost_primer_user, hlen5]
  have htrlen : (String.mk (List.replicate 4000 'a') ++ "...(内容已截断)").length = 4010 := by
    rw [String.length_append, String.length_mk, List.length_replicate,
      show ("...(内容已截断)" : String).length = 10 from rfl]
  have hcostr : listCost [⟨Role.system, "s"⟩,
      ⟨Role.user, String.mk (List.replicate 4000 'a') ++ "...(内容已截断)"⟩] = 2005 := by
    rw [cost_primer_user, htrlen]
  have hbc : historyBeforeCall [⟨Role.system, "s"⟩]
      (String.mk (List.replicate 5000 'a')) =
      [⟨Role.system, "s"⟩, ⟨Role.user, String.mk (List.replicate 5000 'a')⟩] :=
    hbc_primer _
  have hpay : payloadOf "s" [⟨Role.system, "s"⟩] (String.mk (List.replicate 5000 'a')) =
      [⟨Role.system, "s"⟩, ⟨Role.user, String.mk (List.replicate 5000 'a')⟩] :=
    payload_primer_under _ (by rw [hcostp]; norm_num)
  have htr : truncIfLong ⟨Role.user, String.mk (List.replicate 5000 'a')⟩ =
      ⟨Role.user, String.mk (List.replicate 4000 'a') ++ "...(内容已截断)"⟩ := by
    rw [truncIfLong_mk]
    rw [if_pos (by rw [hlen5]; norm_num)]
    rw [show (String.mk (List.replicate 5000 'a')).data = List.replicate 5000 'a'
      from rfl]
    rw [take_replicate_le 'a' 4000 5000 (by norm_num)]
  have ho1 : (if 2100 < listCost [⟨Role.system, "s"⟩,
      ⟨Role.user, String.mk (List.replicate 5000 'a')⟩] then
      (Except.error "context length" : Except String String) else Except.ok "R") =
      Except.error "context length" := by
    rw [if_pos (by rw [hcostp]; norm_num)]
  have ho2 : (if 2100 < listCost [⟨Role.system, "s"⟩,
      ⟨Role.user, String.mk (List.replicate 4000 'a') ++ "...(内容已截断)"⟩] then
      (Except.error "context length" : Except String String) else Except.ok "R") =
      Except.ok "R" := by
    rw [if_neg (by rw [hcostr]; norm_num)]
  have hce : isContextError "context length" = true := by decide
  have hcost3 : listCost [⟨Role.system, "s"⟩,
      ⟨Role.user, String.mk (List.replicate 4000 'a') ++ "...(内容已截断)"⟩,
      ⟨Role.assistant, "R"⟩] ≤ 20000 := by
    rw [listCost_cons, listCost_cons, listCost_cons, listCost_nil, msgCost_mk,
      msgCost_mk, msgCost_mk, htrlen, show ("s" : String).length = 1 from rfl,
      show ("R" : String).length = 1 from rfl]
    norm_num
  have hresp : get_response "s" [⟨Role.system, "s"⟩]
      (String.mk (List.replicate 5000 'a'))
      (fun ms => if 2100 < listCost ms then Except.error "context length"
        else Except.ok "R") =
      ⟨"R", [⟨Role.system, "s"⟩,
          ⟨Role.user, String.mk (List.replicate 4000 'a') ++ "...(内容已截断)"⟩,
          ⟨Role.assistant, "R"⟩],
        [[⟨Role.system, "s"⟩, ⟨Role.user, String.mk (List.replicate 5000 'a')⟩],
          [⟨Role.system, "s"⟩,
            ⟨Role.user, String.mk (List.replicate 4000 'a') ++ "...(内容已截断)"⟩]]⟩ := by
    simp only [get_response, hbc, hpay, ho1, hce, if_true, filter_user_primer,
      List.getLast?_singleton, htr, filter_sys_primer, List.singleton_append,
      dropLast_pair, List.cons_append, List.nil_append, ho2]
    rw [manage_eq_of_le 20000 _ hcost3]
  refine ⟨?_, by rw [hresp], ?_⟩
  · rw [hbc]
    exact List.mem_cons_of_mem _ (List.mem_cons_self _ _)
  · rw [hresp]
    intro hmem
    rcases List.mem_cons.mp hmem with h | hmem2
    · rw [Msg.mk.injEq] at h
      exact absurd h.1 (by decide)
    rcases List.mem_cons.mp hmem2 with h | hmem3
    · rw [Msg.mk.injEq] at h
      have hcl := congrArg String.length h.2
      rw [hlen5, htrlen] at hcl
      exact absurd hcl (by norm_num)
    rcases List.mem_cons.mp hmem3 with h | hmem4
    · rw [Msg.mk.injEq] at h
      exact absurd h.1 (by decide)
    · exact List.not_mem_nil _ hmem4

end BaseAgent
